import Mathlib

/-!
Verification of the core of the `mapreduce` Go repository against its
specification.  Go strings are embedded as lists of bytes (`GoStr`), the
map/reduce executors as pure functions on file contents, and the
scheduler/worker control flow as explicit state-passing functions.
Machine integers stay in `Nat`/`Int` with explicit `% 2^32` where the Go
code relies on 32-bit overflow (the FNV-1a hash).
-/

namespace MapReduce

/-- A Go string, viewed as its sequence of bytes. -/
abbrev GoStr := List Nat

/-- Source `KeyValue` from `common.go`: a key/value record emitted by map functions
and consumed by reduce functions. -/
structure KeyValue where
  Key : GoStr
  Value : GoStr
deriving DecidableEq

/-- The byte string `"Map"` (the `mapParse` constant of `common.go`). -/
def mapParse : GoStr := [77, 97, 112]

/-- The byte string `"Reduce"` (the `reduceParse` constant of `common.go`). -/
def reduceParse : GoStr := [82, 101, 100, 117, 99, 101]

/-- 32-bit FNV-1a over a byte sequence, as computed by `hash/fnv`'s
`New32a`/`Write`/`Sum32`: start from the offset basis 2166136261 and for each
byte xor it in and multiply by the prime 16777619, all modulo `2^32`. -/
def fnv32a (s : GoStr) : Nat :=
  s.foldl (fun h b => ((h ^^^ b) * 16777619) % 4294967296) 2166136261

/-- Source `ihash` from `common.go`: the FNV-1a sum masked with `0x7ffffff`. -/
def ihash (s : GoStr) : Nat :=
  fnv32a s &&& 0x7ffffff

/-- One iteration of `doMap`'s partition loop: append the record to the
partition file selected by `ihash(key) % nReduce` (`encoders[index].Encode`). -/
def doMapStep (nReduce : Nat) (files : List (List KeyValue)) (kv : KeyValue) :
    List (List KeyValue) :=
  files.set (ihash kv.Key % nReduce) (files.getD (ihash kv.Key % nReduce) [] ++ [kv])

/-- The partition files produced by `doMap`'s loop over the map output `kva`,
starting from `nReduce` freshly created (empty) files. -/
def doMapFiles (nReduce : Nat) (kva : List KeyValue) : List (List KeyValue) :=
  kva.foldl (doMapStep nReduce) (List.replicate nReduce [])

/-- Source `doMap`: read the input file whole, apply the user map function to
`(inFile, content)`, and partition the emitted records into `nReduce` files. -/
def doMap (nReduce : Nat) (mapF : GoStr → GoStr → List KeyValue)
    (inFile content : GoStr) : List (List KeyValue) :=
  doMapFiles nReduce (mapF inFile content)

/-- The Go map update `result[key] = append(result[key], value)` of `doReduce`,
on a model of the map as an association list in key-insertion order. -/
def addValue : List (GoStr × List GoStr) → GoStr → GoStr → List (GoStr × List GoStr)
  | [], k, v => [(k, [v])]
  | (k0, vs) :: t, k, v =>
      if k = k0 then (k0, vs ++ [v]) :: t else (k0, vs) :: addValue t k v

/-- Lookup of `result[key]` in the association-list model (the empty list for
an absent key, matching a Go map's zero value for a slice). -/
def vals : List (GoStr × List GoStr) → GoStr → List GoStr
  | [], _ => []
  | (k0, vs) :: t, k => if k = k0 then vs else vals t k

/-- Source `doReduce`'s inner decode loop over one partition file: insert every
decoded record into the grouping map. -/
def insertRecords (m : List (GoStr × List GoStr)) (kvs : List KeyValue) :
    List (GoStr × List GoStr) :=
  kvs.foldl (fun acc kv => addValue acc kv.Key kv.Value) m

/-- Source `doReduce`'s outer loop: process the partition files of map tasks
`0..M-1` in order, grouping every value under its key. -/
def collectRecords (files : List (List KeyValue)) : List (GoStr × List GoStr) :=
  files.foldl insertRecords []

/-- Source `doReduce`: group the records of the `M` partition files by key, then emit
one record per key whose value is `reduceF key values`. -/
def doReduce (reduceF : GoStr → List GoStr → GoStr)
    (files : List (List KeyValue)) : List KeyValue :=
  (collectRecords files).map (fun e => ⟨e.1, reduceF e.1 e.2⟩)

/-- Source `ResultMerger.getSortedKeys`: all keys of the grouping map, sorted
ascending (`sort.Strings`, byte-wise lexicographic order on `GoStr`). -/
def getSortedKeys (m : List (GoStr × List GoStr)) : List GoStr :=
  List.insertionSort (· ≤ ·) (m.map Prod.fst)

/-- Go's `%v` rendering of a `[]string`: the elements separated by single
spaces, surrounded by square brackets. -/
def goFmtValues (vs : List GoStr) : GoStr :=
  [91] ++ (List.intersperse ([32] : GoStr) vs).flatten ++ [93]

/-- One line written by `ResultMerger.writeResults`:
`fmt.Fprintf(w, "%s: %v\n", key, values)`. -/
def fmtLine (k : GoStr) (vs : List GoStr) : GoStr :=
  k ++ [58, 32] ++ goFmtValues vs ++ [10]

/-- Source `ResultMerger.writeResults`: one formatted line per key of the grouping
map, in sorted key order. -/
def writeResults (m : List (GoStr × List GoStr)) : List GoStr :=
  (getSortedKeys m).map (fun k => fmtLine k (vals m k))

/-- The merge step (`ResultMerger.Execute` minus directory handling): group
the records of the reduce output files by key in file order, then write the
sorted, formatted result lines. -/
def mergeResultLines (outputs : List (List KeyValue)) : List GoStr :=
  writeResults (collectRecords outputs)

/-- Observable trace of `TaskScheduler.executeTaskWithRetry`: how many
`executeTask` attempts were made, the `time.Sleep` durations (in
milliseconds) in order, and the returned success flag. -/
structure RetryTrace where
  attempts : Nat
  sleeps : List Nat
  success : Bool
deriving DecidableEq

/-- The retry loop of `executeTaskWithRetry`, parameterised by the outcome
`attempt k` of the `k`-th `executeTask` call on the same worker.  `retries`
is the loop counter and `rem` the remaining iterations
(`maxRetries - retries`); a sleep of `100 * 2^retries` ms happens after a
failed attempt only while `retries < maxRetries - 1`. -/
def retryFrom (attempt : Nat → Bool) : Nat → Nat → RetryTrace
  | _, 0 => ⟨0, [], false⟩
  | retries, rem + 1 =>
    if attempt retries then ⟨1, [], true⟩
    else if rem = 0 then ⟨1, [], false⟩
    else
      ⟨(retryFrom attempt (retries + 1) rem).attempts + 1,
        100 * 2 ^ retries :: (retryFrom attempt (retries + 1) rem).sleeps,
        (retryFrom attempt (retries + 1) rem).success⟩

/-- Source `executeTaskWithRetry` with its `maxRetries = 5`. -/
def executeTaskWithRetry (attempt : Nat → Bool) : RetryTrace :=
  retryFrom attempt 0 5

/-- The scheduler bookkeeping touched by `TaskScheduler.handleTask`:
the task channel, the failed-task channel, the worker pool
(`registerChan`), and the completed tasks. -/
structure SchedState where
  taskQueue : List Nat
  failedQueue : List Nat
  pool : List Nat
  completed : List Nat
deriving DecidableEq

/-- Source `TaskScheduler.handleTask` after pulling `worker` from the pool: run the
retrying executor; on success mark the task complete, otherwise push the task
number onto the failed queue; in both cases hand the worker id back. -/
def handleTask (attempt : Nat → Bool) (taskNum worker : Nat) (s : SchedState) :
    SchedState :=
  if (executeTaskWithRetry attempt).success then
    { s with completed := s.completed ++ [taskNum], pool := s.pool ++ [worker] }
  else
    { s with failedQueue := s.failedQueue ++ [taskNum], pool := s.pool ++ [worker] }

/-- Source `TaskScheduler.requeueFailedTask` via `processTasksAsync`: move the next
entry of the failed queue back onto the task channel. -/
def requeueFailedTask (s : SchedState) : SchedState :=
  match s.failedQueue with
  | [] => s
  | t :: rest => { s with failedQueue := rest, taskQueue := s.taskQueue ++ [t] }

/-- Source `DoTaskArgs` from `common_rpc.go`, fields in declaration order. -/
structure DoTaskArgs where
  JobName : GoStr
  File : GoStr
  Phase : GoStr
  TaskNumber : Nat
  OtherTaskNumber : Nat
deriving DecidableEq

/-- Source `taskContext` from `schedule.go`, fields in declaration order. -/
structure TaskContext where
  worker : Nat
  taskNum : Nat
  phase : GoStr
  jobName : GoStr
  mapFiles : List GoStr
  nOtherTasks : Nat
deriving DecidableEq

/-- The `DoTaskArgs` construction of `schedule.go`'s package-level
`executeTask`: it always reads `ctx.mapFiles[ctx.taskNum]` into `File`; an
out-of-range index is a Go runtime panic, modelled as `none`.  (The RPC call
itself is not part of this model.) -/
def executeTask (ctx : TaskContext) : Option DoTaskArgs :=
  match ctx.mapFiles[ctx.taskNum]? with
  | none => none
  | some f => some ⟨ctx.jobName, f, ctx.phase, ctx.taskNum, ctx.nOtherTasks⟩

/-- An executor invocation observed by the sequential master. -/
inductive Ev where
  | mapTask (m : Nat) (file : GoStr)
  | reduceTask (r : Nat)
  | merged
deriving DecidableEq

/-- Source `Master.runMapTasks`: `doMap` once per input file, in order `0..M-1`. -/
def runMapTasks (files : List GoStr) : List Ev :=
  files.enum.map (fun p => Ev.mapTask p.1 p.2)

/-- Source `Master.runReduceTasks`: `doReduce` once per partition, in order `0..R-1`. -/
def runReduceTasks (R : Nat) : List Ev :=
  (List.range R).map Ev.reduceTask

/-- Result of `Master.run`: the executor invocations that happened, and
whether the run died in a panic. -/
structure RunOutcome where
  events : List Ev
  panicked : Bool
deriving DecidableEq

/-- Source `Master.run`: schedule the map phase, then the reduce phase, then call
`finish()`, then `mr.merge()`.  `finish` is a Go function value; calling a
`nil` function value (`finish = none`) is a runtime panic, so the merge is
never reached in that case. -/
def masterRun (files : List GoStr) (nReduce : Nat) (finish : Option (List Ev)) :
    RunOutcome :=
  match finish with
  | none => ⟨runMapTasks files ++ runReduceTasks nReduce, true⟩
  | some fevs => ⟨runMapTasks files ++ runReduceTasks nReduce ++ fevs ++ [Ev.merged], false⟩

/-- The three argument-validation errors of `Sequential`. -/
inductive ArgError where
  | noInputFiles
  | invalidNReduce
  | nilFunction
deriving DecidableEq

/-- What a call to `Sequential` does: return a validation error having done
no work, die in a panic mid-run, or return normally. -/
inductive SeqResult where
  | argError (e : ArgError)
  | panicked (events : List Ev)
  | ok (events : List Ev)
deriving DecidableEq

/-- The executor invocations performed before `Sequential`'s call ended. -/
def SeqResult.events : SeqResult → List Ev
  | .argError _ => []
  | .panicked evs => evs
  | .ok evs => evs

/-- Whether `Sequential` returned one of its non-nil validation errors. -/
def SeqResult.isArgError : SeqResult → Bool
  | .argError _ => true
  | _ => false

/-- Source `Sequential` from `master.go`: validate the arguments, then run the
master with the sequential schedule closure and a `nil` `finish` callback.
The user functions are `Option`s so that Go's `nil` function values are
representable. -/
def Sequential (files : List GoStr) (nReduce : Int)
    (mapF : Option (GoStr → GoStr → List KeyValue))
    (reduceF : Option (GoStr → List GoStr → GoStr)) : SeqResult :=
  if files.length = 0 then .argError .noInputFiles
  else if nReduce ≤ 0 then .argError .invalidNReduce
  else if mapF.isNone || reduceF.isNone then .argError .nilFunction
  else
    match masterRun files nReduce.toNat none with
    | ⟨evs, true⟩ => .panicked evs
    | ⟨evs, false⟩ => .ok evs

/-- An abstract local filesystem for one worker task attempt. -/
structure FS where
  readFile : GoStr → Option GoStr
  readPartition : GoStr → Nat → Nat → Option (List KeyValue)
  createOk : Bool

/-- Source `doMap` with its error behaviour: a failed input read or a failed
partition-file creation hits `log.Fatalf`, modelled as `none` (the process
exits); otherwise the partition files are produced. -/
def doMapCall (fs : FS) (R : Nat) (mapF : GoStr → GoStr → List KeyValue)
    (inFile : GoStr) : Option (List (List KeyValue)) :=
  match fs.readFile inFile with
  | none => none
  | some content =>
    if fs.createOk then some (doMap R mapF inFile content) else none

/-- Source `doReduce` with its error behaviour: a failed partition-file open or a
failed output creation hits `log.Fatalf`, modelled as `none`; otherwise the
grouped output records are produced. -/
def doReduceCall (fs : FS) (job : GoStr) (r M : Nat)
    (reduceF : GoStr → List GoStr → GoStr) : Option (List KeyValue) :=
  if (List.range M).all (fun m => (fs.readPartition job m r).isSome) then
    if fs.createOk then
      some (doReduce reduceF ((List.range M).map (fun m => (fs.readPartition job m r).getD [])))
    else none
  else none

/-- Which executor a `DoTask` call dispatched to. -/
inductive WorkerEffect where
  | ranMap
  | ranReduce
deriving DecidableEq

/-- How a `Worker.DoTask` invocation ends: the RPC returns (with the error
value returned to the master, the executor that ran, and the new task
counter), or the whole worker process exits (`log.Fatalf` inside an
executor). -/
inductive CallOutcome where
  | returned (err : Option GoStr) (work : Option WorkerEffect) (nTasks : Nat)
  | exited
deriving DecidableEq

/-- Whether the worker process survived the call to serve further RPCs. -/
def CallOutcome.keptServing : CallOutcome → Bool
  | .returned _ _ _ => true
  | .exited => false

/-- Whether the call returned a non-nil error to the master. -/
def CallOutcome.surfacedError : CallOutcome → Bool
  | .returned (some _) _ _ => true
  | _ => false

/-- Source `Worker.DoTask`: increment the task counter first, then dispatch on the
phase; an unknown phase does nothing; the method itself always returns a
`nil` error when it returns at all. -/
def workerDoTask (fs : FS) (mapF : GoStr → GoStr → List KeyValue)
    (reduceF : GoStr → List GoStr → GoStr) (nTasks : Nat) (args : DoTaskArgs) :
    CallOutcome :=
  if args.Phase = mapParse then
    match doMapCall fs args.OtherTaskNumber mapF args.File with
    | none => .exited
    | some _ => .returned none (some .ranMap) (nTasks + 1)
  else if args.Phase = reduceParse then
    match doReduceCall fs args.JobName args.TaskNumber args.OtherTaskNumber reduceF with
    | none => .exited
    | some _ => .returned none (some .ranReduce) (nTasks + 1)
  else .returned none none (nTasks + 1)

/-- A filesystem on which every raw file read fails. -/
def fsFailingRead : FS :=
  ⟨fun _ => none, fun _ _ _ => some [], true⟩

/-- An identity-free map function and a constant reduce function used for
concrete evaluations. -/
def trivialMapF : GoStr → GoStr → List KeyValue := fun _ _ => []

/-- A constant reduce function used for concrete evaluations. -/
def trivialReduceF : GoStr → List GoStr → GoStr := fun _ _ => []

/-- The worker's serving loop restricted to `DoTask` calls, threading the
task counter; `none` means the process exited mid-sequence. -/
def runWorkerAlive (fs : FS) (mapF : GoStr → GoStr → List KeyValue)
    (reduceF : GoStr → List GoStr → GoStr) : Nat → List DoTaskArgs → Option Nat
  | n, [] => some n
  | n, args :: rest =>
    match workerDoTask fs mapF reduceF n args with
    | .returned _ _ n2 => runWorkerAlive fs mapF reduceF n2 rest
    | .exited => none

/-- Source `ShutdownReply` from `common_rpc.go`. -/
structure ShutdownReply where
  Ntasks : Nat
deriving DecidableEq

/-- Source `Worker.Shutdown`: store the current task counter in the reply and
return a `nil` error. -/
def workerShutdown (nTasks : Nat) : ShutdownReply × Option GoStr :=
  (⟨nTasks⟩, none)

theorem doMapStep_length (R : Nat) (files : List (List KeyValue)) (kv : KeyValue) :
    (doMapStep R files kv).length = files.length := by
  simp [doMapStep]

theorem doMapStep_getD (R : Nat) (hR : 0 < R) (files : List (List KeyValue))
    (hlen : files.length = R) (kv : KeyValue) (p : Nat) (hp : p < R) :
    (doMapStep R files kv).getD p [] =
      files.getD p [] ++ (if ihash kv.Key % R = p then [kv] else []) := by
  unfold doMapStep
  have hidx : ihash kv.Key % R < files.length := by
    rw [hlen]; exact Nat.mod_lt _ hR
  rcases eq_or_ne (ihash kv.Key % R) p with h | h
  · subst h
    rw [List.getD_eq_getElem?_getD, List.getElem?_set_self', List.getElem?_eq_getElem hidx]
    simp [List.getD_eq_getElem?_getD]
  · simp [List.getD_eq_getElem?_getD, List.getElem?_set_ne h, h]

theorem doMapFiles_aux (R : Nat) (hR : 0 < R) (kva : List KeyValue) :
    ∀ F : List (List KeyValue), F.length = R →
      (kva.foldl (doMapStep R) F).length = R ∧
      ∀ p, p < R → (kva.foldl (doMapStep R) F).getD p [] =
        F.getD p [] ++ kva.filter (fun kv => ihash kv.Key % R == p) := by
  induction kva with
  | nil => intro F hF; simpa using hF
  | cons kv t ih =>
    intro F hF
    have hstep : (doMapStep R F kv).length = R := by
      rw [doMapStep_length]; exact hF
    obtain ⟨h1, h2⟩ := ih (doMapStep R F kv) hstep
    refine ⟨by simpa using h1, ?_⟩
    intro p hp
    have := h2 p hp
    simp only [List.foldl_cons]
    rw [this, doMapStep_getD R hR F hF kv p hp]
    rcases eq_or_ne (ihash kv.Key % R) p with h | h
    · subst h
      simp [List.filter_cons]
    · simp [List.filter_cons, h]

theorem doMapFiles_length (R : Nat) (hR : 0 < R) (kva : List KeyValue) :
    (doMapFiles R kva).length = R :=
  (doMapFiles_aux R hR kva (List.replicate R []) (by simp)).1

theorem doMapFiles_getD (R : Nat) (hR : 0 < R) (kva : List KeyValue)
    (p : Nat) (hp : p < R) :
    (doMapFiles R kva).getD p [] = kva.filter (fun kv => ihash kv.Key % R == p) := by
  have := (doMapFiles_aux R hR kva (List.replicate R []) (by simp)).2 p hp
  simpa [List.getD_eq_getElem?_getD, List.getElem?_replicate, hp] using this

/-- CLAIM C1: for every map task, input file, `R ≥ 1` and user map function,
`doMap` writes each emitted record to exactly one of the `R` partition files —
the one whose index is `ihash(key) % R` — and each partition file holds, in
the map function's emission order, exactly the emitted records hashing to it. -/
theorem claim_C1 (R : Nat) (hR : 1 ≤ R) (mapF : GoStr → GoStr → List KeyValue)
    (inFile content : GoStr) :
    (doMap R mapF inFile content).length = R ∧
    (∀ p, p < R → (doMap R mapF inFile content).getD p [] =
      (mapF inFile content).filter (fun kv => ihash kv.Key % R == p)) ∧
    (∀ kv, kv ∈ mapF inFile content → ihash kv.Key % R < R ∧
      ∀ p, p < R →
        (kv ∈ (doMap R mapF inFile content).getD p [] ↔ p = ihash kv.Key % R)) := by
  have hR' : 0 < R := hR
  unfold doMap
  refine ⟨doMapFiles_length R hR' _, fun p hp => doMapFiles_getD R hR' _ p hp, ?_⟩
  intro kv hkv
  refine ⟨Nat.mod_lt _ hR', fun p hp => ?_⟩
  rw [doMapFiles_getD R hR' _ p hp]
  simp only [List.mem_filter, beq_iff_eq]
  constructor
  · rintro ⟨-, h⟩; exact h.symm
  · rintro rfl; exact ⟨hkv, rfl⟩

/-- Witness for C1 at a concrete input: `R = 2` and a map function emitting
two records with keys `"a"` and `"b"`. -/
theorem claim_C1_witness :
    1 ≤ 2 ∧
    ((doMap 2 (fun _ _ => [⟨[97], [49]⟩, ⟨[98], [50]⟩]) [] []).length = 2 ∧
    (∀ p, p < 2 → (doMap 2 (fun _ _ => [⟨[97], [49]⟩, ⟨[98], [50]⟩]) [] []).getD p [] =
      ((fun (_ _ : GoStr) => [(⟨[97], [49]⟩ : KeyValue), ⟨[98], [50]⟩]) [] []).filter
        (fun kv => ihash kv.Key % 2 == p)) ∧
    (∀ kv, kv ∈ (fun (_ _ : GoStr) => [(⟨[97], [49]⟩ : KeyValue), ⟨[98], [50]⟩]) [] [] →
      ihash kv.Key % 2 < 2 ∧
      ∀ p, p < 2 →
        (kv ∈ (doMap 2 (fun _ _ => [⟨[97], [49]⟩, ⟨[98], [50]⟩]) [] []).getD p [] ↔
          p = ihash kv.Key % 2))) :=
  ⟨by decide, claim_C1 2 (by decide) (fun _ _ => [⟨[97], [49]⟩, ⟨[98], [50]⟩]) [] []⟩

theorem vals_addValue (m : List (GoStr × List GoStr)) (k v : GoStr) (q : GoStr) :
    vals (addValue m k v) q = if q = k then vals m q ++ [v] else vals m q := by
  induction m with
  | nil =>
    by_cases h : q = k <;> simp [addValue, vals, h]
  | cons e t ih =>
    obtain ⟨k0, vs⟩ := e
    by_cases hk : k = k0
    · subst hk
      by_cases hq : q = k <;> simp [addValue, vals, hq]
    · by_cases hq : q = k0
      · subst hq
        simp [addValue, hk, vals, Ne.symm hk]
      · simp [addValue, hk, vals, hq, ih]

theorem keys_addValue (m : List (GoStr × List GoStr)) (k v : GoStr) :
    (addValue m k v).map Prod.fst =
      if k ∈ m.map Prod.fst then m.map Prod.fst else m.map Prod.fst ++ [k] := by
  induction m with
  | nil => simp [addValue]
  | cons e t ih =>
    obtain ⟨k0, vs⟩ := e
    by_cases hk : k = k0
    · subst hk
      simp [addValue]
    · by_cases hmem : k ∈ t.map Prod.fst <;>
        simp [addValue, hk, ih, hmem]

theorem keys_addValue_nodup (m : List (GoStr × List GoStr)) (k v : GoStr)
    (h : (m.map Prod.fst).Nodup) : ((addValue m k v).map Prod.fst).Nodup := by
  rw [keys_addValue]
  by_cases hmem : k ∈ m.map Prod.fst
  · simpa [hmem] using h
  · simp only [hmem, if_false]
    rw [List.nodup_append]
    refine ⟨h, List.nodup_singleton k, fun a ha hb => ?_⟩
    have hak : a = k := List.mem_singleton.mp hb
    exact hmem (hak ▸ ha)

theorem vals_insertRecords (kvs : List KeyValue) :
    ∀ (m : List (GoStr × List GoStr)) (q : GoStr),
      vals (insertRecords m kvs) q =
        vals m q ++ (kvs.filter (fun kv => kv.Key == q)).map (fun kv => kv.Value) := by
  induction kvs with
  | nil => intro m q; simp [insertRecords]
  | cons kv t ih =>
    intro m q
    simp only [insertRecords, List.foldl_cons]
    rw [show List.foldl (fun acc kv => addValue acc kv.Key kv.Value)
          (addValue m kv.Key kv.Value) t =
        insertRecords (addValue m kv.Key kv.Value) t from rfl, ih]
    rw [vals_addValue]
    by_cases hq : q = kv.Key
    · subst hq
      simp [List.filter_cons]
    · simp [List.filter_cons, hq, Ne.symm hq]

theorem keys_insertRecords_mem (kvs : List KeyValue) :
    ∀ (m : List (GoStr × List GoStr)) (q : GoStr),
      q ∈ (insertRecords m kvs).map Prod.fst ↔
        q ∈ m.map Prod.fst ∨ q ∈ kvs.map (fun kv => kv.Key) := by
  induction kvs with
  | nil => intro m q; simp [insertRecords]
  | cons kv t ih =>
    intro m q
    simp only [insertRecords, List.foldl_cons]
    rw [show List.foldl (fun acc kv => addValue acc kv.Key kv.Value)
          (addValue m kv.Key kv.Value) t =
        insertRecords (addValue m kv.Key kv.Value) t from rfl, ih]
    rw [keys_addValue]
    by_cases hmem : kv.Key ∈ m.map Prod.fst
    · simp only [hmem, if_true, List.map_cons, List.mem_cons]
      constructor
      · rintro (h | h)
        · exact Or.inl h
        · exact Or.inr (Or.inr h)
      · rintro (h | rfl | h)
        · exact Or.inl h
        · exact Or.inl hmem
        · exact Or.inr h
    · simp only [hmem, if_false, List.mem_append, List.mem_singleton,
        List.map_cons, List.mem_cons]
      tauto

theorem keys_insertRecords_nodup (kvs : List KeyValue) :
    ∀ (m : List (GoStr × List GoStr)), (m.map Prod.fst).Nodup →
      ((insertRecords m kvs).map Prod.fst).Nodup := by
  induction kvs with
  | nil => intro m h; simpa [insertRecords] using h
  | cons kv t ih =>
    intro m h
    simp only [insertRecords, List.foldl_cons]
    exact ih (addValue m kv.Key kv.Value) (keys_addValue_nodup m kv.Key kv.Value h)

theorem collectRecords_eq_insert_flatten (files : List (List KeyValue)) :
    collectRecords files = insertRecords [] files.flatten := by
  suffices h : ∀ (m : List (GoStr × List GoStr)),
      files.foldl insertRecords m = insertRecords m files.flatten by
    exact h []
  induction files with
  | nil => intro m; simp [insertRecords]
  | cons f t ih =>
    intro m
    simp only [List.foldl_cons, List.flatten_cons, ih, insertRecords, List.foldl_append]

theorem vals_collectRecords (files : List (List KeyValue)) (q : GoStr) :
    vals (collectRecords files) q =
      (files.flatten.filter (fun kv => kv.Key == q)).map (fun kv => kv.Value) := by
  rw [collectRecords_eq_insert_flatten, vals_insertRecords]
  simp [vals]

theorem keys_collectRecords_mem (files : List (List KeyValue)) (q : GoStr) :
    q ∈ (collectRecords files).map Prod.fst ↔
      q ∈ files.flatten.map (fun kv => kv.Key) := by
  rw [collectRecords_eq_insert_flatten, keys_insertRecords_mem]
  simp

theorem keys_collectRecords_nodup (files : List (List KeyValue)) :
    ((collectRecords files).map Prod.fst).Nodup := by
  rw [collectRecords_eq_insert_flatten]
  exact keys_insertRecords_nodup _ [] (by simp)

theorem vals_of_mem_of_nodup (m : List (GoStr × List GoStr))
    (h : (m.map Prod.fst).Nodup) (e : GoStr × List GoStr) (he : e ∈ m) :
    vals m e.1 = e.2 := by
  induction m with
  | nil => cases he
  | cons e0 t ih =>
    obtain ⟨k0, vs0⟩ := e0
    rcases List.mem_cons.mp he with rfl | hmem
    · simp [vals]
    · have hk : e.1 ≠ k0 := by
        rintro hq
        have : e.1 ∈ t.map Prod.fst := List.mem_map_of_mem Prod.fst hmem
        rw [hq] at this
        exact (List.nodup_cons.mp (by simpa using h)).1 this
      simp only [vals, hk, if_false]
      exact ih (List.nodup_cons.mp (by simpa using h)).2 hmem

/-- CLAIM C2: for every reduce task, `M ≥ 1` and user reduce function,
`doReduce` emits exactly one record per distinct key occurring in the `M`
partition files, and that record's value is the reduce function applied to the
key and its values collected in map-task order `0..M-1` and, within one map
task's file, in decoded order (so exactly the order of the flattened files). -/
theorem claim_C2 (M : Nat) (hM : 1 ≤ M) (files : List (List KeyValue))
    (hlen : files.length = M) (reduceF : GoStr → List GoStr → GoStr) :
    ((doReduce reduceF files).map (fun r => r.Key)).Nodup ∧
    (∀ k, k ∈ (doReduce reduceF files).map (fun r => r.Key) ↔
      k ∈ files.flatten.map (fun kv => kv.Key)) ∧
    (∀ rec, rec ∈ doReduce reduceF files →
      rec.Value = reduceF rec.Key
        ((files.flatten.filter (fun kv => kv.Key == rec.Key)).map (fun kv => kv.Value))) := by
  have hkeys : (doReduce reduceF files).map (fun r => r.Key) =
      (collectRecords files).map Prod.fst := by
    simp [doReduce, List.map_map, Function.comp]
  refine ⟨?_, ?_, ?_⟩
  · rw [hkeys]; exact keys_collectRecords_nodup files
  · intro k
    rw [hkeys]
    exact keys_collectRecords_mem files k
  · intro rec hrec
    simp only [doReduce, List.mem_map] at hrec
    obtain ⟨e, he, rfl⟩ := hrec
    have h1 : vals (collectRecords files) e.1 = e.2 :=
      vals_of_mem_of_nodup _ (keys_collectRecords_nodup files) e he
    have h2 := vals_collectRecords files e.1
    rw [h1] at h2
    simpa using congrArg (reduceF e.1) h2

/-- Witness for C2 at a concrete input: one partition file containing two
records with the same key and one with another key. -/
theorem claim_C2_witness :
    1 ≤ 1 ∧
    ([[(⟨[97], [49]⟩ : KeyValue), ⟨[98], [50]⟩, ⟨[97], [51]⟩]] :
      List (List KeyValue)).length = 1 ∧
    (((doReduce (fun _ vs => vs.flatten) [[⟨[97], [49]⟩, ⟨[98], [50]⟩, ⟨[97], [51]⟩]]).map
        (fun r => r.Key)).Nodup ∧
    (∀ k, k ∈ (doReduce (fun _ vs => vs.flatten)
        [[⟨[97], [49]⟩, ⟨[98], [50]⟩, ⟨[97], [51]⟩]]).map (fun r => r.Key) ↔
      k ∈ ([[(⟨[97], [49]⟩ : KeyValue), ⟨[98], [50]⟩, ⟨[97], [51]⟩]] :
        List (List KeyValue)).flatten.map (fun kv => kv.Key)) ∧
    (∀ rec, rec ∈ doReduce (fun _ vs => vs.flatten)
        [[⟨[97], [49]⟩, ⟨[98], [50]⟩, ⟨[97], [51]⟩]] →
      rec.Value = (fun (_ : GoStr) (vs : List GoStr) => vs.flatten) rec.Key
        ((([[(⟨[97], [49]⟩ : KeyValue), ⟨[98], [50]⟩, ⟨[97], [51]⟩]] :
            List (List KeyValue)).flatten.filter
          (fun kv => kv.Key == rec.Key)).map (fun kv => kv.Value)))) :=
  ⟨by decide, rfl,
    claim_C2 1 (by decide) [[⟨[97], [49]⟩, ⟨[98], [50]⟩, ⟨[97], [51]⟩]] rfl
      (fun _ vs => vs.flatten)⟩

theorem pairwise_lt_of_sorted_nodup {l : List GoStr}
    (hs : l.Pairwise (· ≤ ·)) (hn : l.Nodup) : l.Pairwise (· < ·) := by
  induction l with
  | nil => exact .nil
  | cons a t ih =>
    rcases List.pairwise_cons.mp hs with ⟨ha, ht⟩
    rcases List.nodup_cons.mp hn with ⟨hna, hnt⟩
    refine List.pairwise_cons.mpr ⟨fun b hb => lt_of_le_of_ne (ha b hb) ?_, ih ht hnt⟩
    rintro rfl
    exact hna hb

theorem getSortedKeys_sorted (m : List (GoStr × List GoStr)) :
    (getSortedKeys m).Pairwise (· ≤ ·) :=
  List.sorted_insertionSort (· ≤ ·) (m.map Prod.fst)

theorem getSortedKeys_perm (m : List (GoStr × List GoStr)) :
    List.Perm (getSortedKeys m) (m.map Prod.fst) :=
  List.perm_insertionSort (· ≤ ·) (m.map Prod.fst)

/-- CLAIM C3: the merge step produces exactly one line per distinct key of the
reduce output files, lines ordered by strictly ascending lexicographic key
order, each line formatted as the key, a colon and space, and the values in
square brackets separated by single spaces, terminated by a newline. -/
theorem claim_C3 (outputs : List (List KeyValue)) :
    mergeResultLines outputs =
      (getSortedKeys (collectRecords outputs)).map (fun k =>
        k ++ [58, 32] ++
          goFmtValues ((outputs.flatten.filter (fun kv => kv.Key == k)).map
            (fun kv => kv.Value)) ++ [10]) ∧
    (getSortedKeys (collectRecords outputs)).Pairwise (· < ·) ∧
    (∀ k, k ∈ getSortedKeys (collectRecords outputs) ↔
      k ∈ outputs.flatten.map (fun kv => kv.Key)) := by
  have hnodup : (getSortedKeys (collectRecords outputs)).Nodup :=
    ((getSortedKeys_perm _).nodup_iff).mpr (keys_collectRecords_nodup outputs)
  refine ⟨?_, pairwise_lt_of_sorted_nodup (getSortedKeys_sorted _) hnodup, fun k => ?_⟩
  · unfold mergeResultLines writeResults
    refine List.map_congr_left fun k _ => ?_
    rw [fmtLine, vals_collectRecords]
  · rw [(getSortedKeys_perm _).mem_iff]
    exact keys_collectRecords_mem outputs k

theorem retryFrom_spec (attempt : Nat → Bool) :
    ∀ rem retries, 0 < rem →
      (1 ≤ (retryFrom attempt retries rem).attempts ∧
        (retryFrom attempt retries rem).attempts ≤ rem) ∧
      ((retryFrom attempt retries rem).success = true ↔
        ∃ k, k < rem ∧ attempt (retries + k) = true) ∧
      ((retryFrom attempt retries rem).success = false →
        (retryFrom attempt retries rem).attempts = rem) ∧
      (retryFrom attempt retries rem).sleeps =
        (List.range ((retryFrom attempt retries rem).attempts - 1)).map
          (fun k => 100 * 2 ^ (retries + k)) := by
  intro rem
  induction rem with
  | zero => intro retries h; cases h
  | succ r ih =>
    intro retries _
    by_cases h0 : attempt retries
    · have hat : (retryFrom attempt retries (r + 1)).attempts = 1 := by
        simp [retryFrom, h0]
      have hsl : (retryFrom attempt retries (r + 1)).sleeps = [] := by
        simp [retryFrom, h0]
      have hsc : (retryFrom attempt retries (r + 1)).success = true := by
        simp [retryFrom, h0]
      rw [hat, hsl, hsc]
      refine ⟨⟨le_refl 1, by omega⟩, ?_, ?_, ?_⟩
      · constructor
        · intro _
          exact ⟨0, by omega, by simpa using h0⟩
        · intro _
          rfl
      · intro h
        cases h
      · simp
    · rcases Nat.eq_zero_or_pos r with rfl | hr
      · have hat : (retryFrom attempt retries 1).attempts = 1 := by
          simp [retryFrom, h0]
        have hsl : (retryFrom attempt retries 1).sleeps = [] := by
          simp [retryFrom, h0]
        have hsc : (retryFrom attempt retries 1).success = false := by
          simp [retryFrom, h0]
        rw [hat, hsl, hsc]
        refine ⟨⟨le_refl 1, le_refl 1⟩, ?_, ?_, ?_⟩
        · constructor
          · intro h
            cases h
          · rintro ⟨k, hk, hak⟩
            have hk0 : k = 0 := by omega
            subst hk0
            exact absurd (by simpa using hak) h0
        · intro _
          rfl
        · simp
      · have hr' : r ≠ 0 := Nat.pos_iff_ne_zero.mp hr
        obtain ⟨⟨ha1, ha2⟩, hsucc, hfail, hsleep⟩ := ih (retries + 1) hr
        have hat : (retryFrom attempt retries (r + 1)).attempts =
            (retryFrom attempt (retries + 1) r).attempts + 1 := by
          simp [retryFrom, h0, hr']
        have hsl : (retryFrom attempt retries (r + 1)).sleeps =
            100 * 2 ^ retries :: (retryFrom attempt (retries + 1) r).sleeps := by
          simp [retryFrom, h0, hr']
        have hsc : (retryFrom attempt retries (r + 1)).success =
            (retryFrom attempt (retries + 1) r).success := by
          simp [retryFrom, h0, hr']
        rw [hat, hsl, hsc]
        refine ⟨⟨by omega, by omega⟩, ?_, ?_, ?_⟩
        · rw [hsucc]
          constructor
          · rintro ⟨k, hk, hak⟩
            refine ⟨k + 1, by omega, ?_⟩
            have harith : retries + (k + 1) = retries + 1 + k := by omega
            rw [harith]
            exact hak
          · rintro ⟨k, hk, hak⟩
            rcases k with _ | k
            · exact absurd (by simpa using hak) h0
            · refine ⟨k, by omega, ?_⟩
              have harith : retries + 1 + k = retries + (k + 1) := by omega
              rw [harith]
              exact hak
        · intro hf
          have := hfail hf
          omega
        · rw [hsleep]
          have hA : (retryFrom attempt (retries + 1) r).attempts + 1 - 1 =
              ((retryFrom attempt (retries + 1) r).attempts - 1) + 1 := by omega
          rw [hA, List.range_succ_eq_map, List.map_cons, List.map_map]
          refine congrArg₂ _ (by simp) (List.map_congr_left fun k _ => ?_)
          simp only [Function.comp_apply, Nat.succ_eq_add_one]
          have harith : retries + (k + 1) = retries + 1 + k := by omega
          rw [harith]

/-- CLAIM C4: when every `DoTask` attempt on the worker fails, the scheduler
makes exactly 5 attempts on that same worker, sleeping `100 * 2^k` ms before
the `(k+1)`-th retry (no sleep after the last), then places the task number
on the failed queue while still returning the worker to the pool, from where
`requeueFailedTask` moves it back onto the work queue; in general at most 5
attempts are made and the sleep before the `(k+1)`-th retry is `100 * 2^k`. -/
theorem claim_C4 (attempt : Nat → Bool) (taskNum worker : Nat) (s : SchedState)
    (hfail : ∀ k, k < 5 → attempt k = false) (hq : s.failedQueue = []) :
    executeTaskWithRetry attempt = ⟨5, [100, 200, 400, 800], false⟩ ∧
    handleTask attempt taskNum worker s =
      { s with failedQueue := s.failedQueue ++ [taskNum], pool := s.pool ++ [worker] } ∧
    requeueFailedTask (handleTask attempt taskNum worker s) =
      ⟨s.taskQueue ++ [taskNum], [], s.pool ++ [worker], s.completed⟩ ∧
    (∀ g : Nat → Bool, (executeTaskWithRetry g).attempts ≤ 5 ∧
      ((executeTaskWithRetry g).success = true ↔ ∃ k, k < 5 ∧ g k = true) ∧
      (executeTaskWithRetry g).sleeps =
        (List.range ((executeTaskWithRetry g).attempts - 1)).map
          (fun k => 100 * 2 ^ k)) := by
  have h0 := hfail 0 (by omega)
  have h1 := hfail 1 (by omega)
  have h2 := hfail 2 (by omega)
  have h3 := hfail 3 (by omega)
  have h4 := hfail 4 (by omega)
  have htrace : executeTaskWithRetry attempt = ⟨5, [100, 200, 400, 800], false⟩ := by
    simp [executeTaskWithRetry, retryFrom, h0, h1, h2, h3, h4]
  have hhandle : handleTask attempt taskNum worker s =
      { s with failedQueue := s.failedQueue ++ [taskNum], pool := s.pool ++ [worker] } := by
    simp [handleTask, htrace]
  refine ⟨htrace, hhandle, ?_, ?_⟩
  · rw [hhandle, hq]
    simp [requeueFailedTask]
  · intro g
    obtain ⟨⟨_, ha2⟩, hsucc, _, hsleep⟩ := retryFrom_spec g 5 0 (by omega)
    exact ⟨ha2, by simpa using hsucc, by simpa using hsleep⟩

/-- Witness for C4: the constantly failing attempt oracle on an empty
scheduler state. -/
theorem claim_C4_witness :
    (∀ k, k < 5 → (fun _ => false) k = false) ∧
    (⟨[], [], [], []⟩ : SchedState).failedQueue = [] ∧
    (executeTaskWithRetry (fun _ => false) = ⟨5, [100, 200, 400, 800], false⟩ ∧
    handleTask (fun _ => false) 7 3 ⟨[], [], [], []⟩ =
      { (⟨[], [], [], []⟩ : SchedState) with failedQueue := [] ++ [7], pool := [] ++ [3] } ∧
    requeueFailedTask (handleTask (fun _ => false) 7 3 ⟨[], [], [], []⟩) =
      ⟨([] : List Nat) ++ [7], [], ([] : List Nat) ++ [3], []⟩ ∧
    (∀ g : Nat → Bool, (executeTaskWithRetry g).attempts ≤ 5 ∧
      ((executeTaskWithRetry g).success = true ↔ ∃ k, k < 5 ∧ g k = true) ∧
      (executeTaskWithRetry g).sleeps =
        (List.range ((executeTaskWithRetry g).attempts - 1)).map
          (fun k => 100 * 2 ^ k))) :=
  ⟨fun _ _ => rfl, rfl, claim_C4 (fun _ => false) 7 3 ⟨[], [], [], []⟩ (fun _ _ => rfl) rfl⟩

/-- CLAIM C6 (refuted, code bug): with one map file (`M = 1`) and two reduce
tasks (`R = 2`), building the arguments for reduce task 1 panics
(`mapFiles[1]` out of range), and for reduce task 0 the `File` field is set
to the map input file `"a"`, which is not empty — contradicting the claim
that `File` is set only for MAP tasks and that the construction is
well-defined for every `R > M`. -/
theorem claim_C6 :
    executeTask ⟨0, 1, reduceParse, [106], [[97]], 1⟩ = none ∧
    executeTask ⟨0, 0, reduceParse, [106], [[97]], 1⟩ =
      some ⟨[106], [97], reduceParse, 0, 1⟩ ∧
    ([97] : GoStr) ≠ [] := by
  refine ⟨rfl, rfl, by decide⟩

/-- CLAIM C5 (refuted, code bug): on a valid job `Sequential` does run the
map executor and then the reduce executor, but `Master.run` then calls the
`nil` `finish` callback, panicking before `mr.merge()`; it neither merges
nor returns without error. -/
theorem claim_C5 :
    Sequential [[97]] 1 (some fun _ _ => []) (some fun _ _ => []) =
      .panicked [Ev.mapTask 0 [97], Ev.reduceTask 0] ∧
    (Sequential [[97]] 1 (some fun _ _ => []) (some fun _ _ => [])).events.count
      Ev.merged = 0 := by
  refine ⟨rfl, rfl⟩

/-- CLAIM C8: `Sequential` returns a non-nil error and performs no map,
reduce, or merge work whenever the input file list is empty, `nReduce ≤ 0`,
or either user function is `nil`. -/
theorem claim_C8 (files : List GoStr) (nReduce : Int)
    (mapF : Option (GoStr → GoStr → List KeyValue))
    (reduceF : Option (GoStr → List GoStr → GoStr))
    (h : files = [] ∨ nReduce ≤ 0 ∨ mapF = none ∨ reduceF = none) :
    (Sequential files nReduce mapF reduceF).isArgError = true ∧
    (Sequential files nReduce mapF reduceF).events = [] := by
  unfold Sequential
  by_cases h1 : files.length = 0
  · simp [h1, SeqResult.isArgError, SeqResult.events]
  · by_cases h2 : nReduce ≤ 0
    · simp [h1, h2, SeqResult.isArgError, SeqResult.events]
    · by_cases h3 : mapF.isNone || reduceF.isNone
      · simp [h1, h2, h3, SeqResult.isArgError, SeqResult.events]
      · exfalso
        rcases h with rfl | hle | rfl | rfl
        · exact h1 rfl
        · exact h2 hle
        · simp at h3
        · simp at h3

/-- Witness for C8: the empty input file list. -/
theorem claim_C8_witness :
    (([] : List GoStr) = [] ∨ (1 : Int) ≤ 0 ∨
      (some fun (_ _ : GoStr) => ([] : List KeyValue)) = none ∨
      (some fun (_ : GoStr) (_ : List GoStr) => ([] : GoStr)) = none) ∧
    ((Sequential [] 1 (some fun _ _ => []) (some fun _ _ => [])).isArgError = true ∧
    (Sequential [] 1 (some fun _ _ => []) (some fun _ _ => [])).events = []) :=
  ⟨Or.inl rfl,
    claim_C8 [] 1 (some fun _ _ => []) (some fun _ _ => []) (Or.inl rfl)⟩

/-- Counterexample to CLAIM C7: on a map task whose input file cannot be
read, the worker process exits (it does not keep serving) and no error is
surfaced to the master through the `DoTask` return value. -/
theorem claim_C7_counterexample :
    (workerDoTask fsFailingRead trivialMapF trivialReduceF 0
      ⟨[106], [97], mapParse, 0, 1⟩).keptServing = false ∧
    (workerDoTask fsFailingRead trivialMapF trivialReduceF 0
      ⟨[106], [97], mapParse, 0, 1⟩).surfacedError = false := by
  refine ⟨rfl, rfl⟩

/-- CLAIM C7 as amended: a file error during a map or reduce task attempt is
handled by `log.Fatalf`, which terminates the whole worker process; the
attempt never returns an error through `DoTask` (the master can observe the
failure only as the in-flight call dying with the process). -/
theorem claim_C7 (fs : FS) (mapF : GoStr → GoStr → List KeyValue)
    (reduceF : GoStr → List GoStr → GoStr) (nTasks : Nat) (args : DoTaskArgs)
    (h : (args.Phase = mapParse ∧
        doMapCall fs args.OtherTaskNumber mapF args.File = none) ∨
      (args.Phase = reduceParse ∧
        doReduceCall fs args.JobName args.TaskNumber args.OtherTaskNumber reduceF = none)) :
    workerDoTask fs mapF reduceF nTasks args = .exited ∧
    (workerDoTask fs mapF reduceF nTasks args).keptServing = false := by
  rcases h with ⟨hp, hc⟩ | ⟨hp, hc⟩
  · constructor
    · simp [workerDoTask, hp, hc]
    · simp [workerDoTask, hp, hc, CallOutcome.keptServing]
  · have hne : (reduceParse : GoStr) ≠ mapParse := by decide
    constructor
    · simp [workerDoTask, hp, hne, hc]
    · simp [workerDoTask, hp, hne, hc, CallOutcome.keptServing]

/-- Witness for the amended C7 at the concrete failing map input. -/
theorem claim_C7_witness :
    ((mapParse = mapParse ∧
      doMapCall fsFailingRead 1 trivialMapF [97] = none) ∨
      (mapParse = reduceParse ∧
      doReduceCall fsFailingRead [106] 0 1 trivialReduceF = none)) ∧
    (workerDoTask fsFailingRead trivialMapF trivialReduceF 0
      ⟨[106], [97], mapParse, 0, 1⟩ = .exited ∧
    (workerDoTask fsFailingRead trivialMapF trivialReduceF 0
      ⟨[106], [97], mapParse, 0, 1⟩).keptServing = false) := by
  refine ⟨Or.inl ⟨rfl, rfl⟩, ?_⟩
  exact claim_C7 fsFailingRead trivialMapF trivialReduceF 0
    ⟨[106], [97], mapParse, 0, 1⟩ (Or.inl ⟨rfl, rfl⟩)

/-- CLAIM C9: a `DoTask` call whose phase is neither `"Map"` nor `"Reduce"`
runs no executor, still increments the task counter, and returns a `nil`
error, so the master sees it as successful. -/
theorem claim_C9 (fs : FS) (mapF : GoStr → GoStr → List KeyValue)
    (reduceF : GoStr → List GoStr → GoStr) (nTasks : Nat) (args : DoTaskArgs)
    (h1 : args.Phase ≠ mapParse) (h2 : args.Phase ≠ reduceParse) :
    workerDoTask fs mapF reduceF nTasks args =
      .returned none none (nTasks + 1) := by
  simp [workerDoTask, h1, h2]

/-- Witness for C9: the phase `"X"`. -/
theorem claim_C9_witness :
    (([88] : GoStr) ≠ mapParse) ∧ (([88] : GoStr) ≠ reduceParse) ∧
    workerDoTask fsFailingRead trivialMapF trivialReduceF 4
      ⟨[106], [97], [88], 0, 1⟩ = .returned none none 5 :=
  ⟨by decide, by decide,
    claim_C9 fsFailingRead trivialMapF trivialReduceF 4
      ⟨[106], [97], [88], 0, 1⟩ (by decide) (by decide)⟩

theorem workerDoTask_count (fs : FS) (mapF : GoStr → GoStr → List KeyValue)
    (reduceF : GoStr → List GoStr → GoStr) (n : Nat) (args : DoTaskArgs)
    (e : Option GoStr) (w : Option WorkerEffect) (n2 : Nat)
    (h : workerDoTask fs mapF reduceF n args = .returned e w n2) : n2 = n + 1 := by
  unfold workerDoTask at h
  by_cases h1 : args.Phase = mapParse
  · rw [if_pos h1] at h
    rcases hm : doMapCall fs args.OtherTaskNumber mapF args.File with _ | v <;>
      simp [hm] at h
    omega
  · rw [if_neg h1] at h
    by_cases h2 : args.Phase = reduceParse
    · rw [if_pos h2] at h
      rcases hm : doReduceCall fs args.JobName args.TaskNumber args.OtherTaskNumber
          reduceF with _ | v <;> simp [hm] at h
      omega
    · rw [if_neg h2] at h
      simp at h
      omega

/-- CLAIM C10: whenever the worker is still alive after a sequence of
`DoTask` invocations, `Worker.Shutdown` returns a `nil` error and a reply
whose task count equals the number of `DoTask` invocations received (the
counter is incremented at the start of `DoTask`, before any executor runs,
so no-op calls count too). -/
theorem claim_C10 (fs : FS) (mapF : GoStr → GoStr → List KeyValue)
    (reduceF : GoStr → List GoStr → GoStr) (n0 : Nat) (calls : List DoTaskArgs)
    (n : Nat) (h : runWorkerAlive fs mapF reduceF n0 calls = some n) :
    workerShutdown n = (⟨n0 + calls.length⟩, none) := by
  suffices hn : n = n0 + calls.length by
    subst hn
    rfl
  induction calls generalizing n0 with
  | nil =>
    simp [runWorkerAlive] at h
    simp only [List.length_nil, Nat.add_zero]
    omega
  | cons a rest ih =>
    unfold runWorkerAlive at h
    cases hw : workerDoTask fs mapF reduceF n0 a with
    | returned e w n2 =>
      simp only [hw] at h
      have hcount := workerDoTask_count fs mapF reduceF n0 a e w n2 hw
      have hrest := ih n2 h
      simp only [List.length_cons]
      omega
    | exited =>
      simp only [hw] at h
      cases h

/-- Witness for C10: one no-op `DoTask` call (unknown phase) starting from a
fresh worker. -/
theorem claim_C10_witness :
    runWorkerAlive fsFailingRead trivialMapF trivialReduceF 0
      [⟨[106], [97], [88], 0, 1⟩] = some 1 ∧
    workerShutdown 1 =
      (⟨0 + ([(⟨[106], [97], [88], 0, 1⟩ : DoTaskArgs)]).length⟩, none) :=
  ⟨by decide,
    claim_C10 fsFailingRead trivialMapF trivialReduceF 0
      [⟨[106], [97], [88], 0, 1⟩] 1 (by decide)⟩

end MapReduce
